import Mathlib

/-!
Shallow embedding of the spanreed distributed-bakery example
(src/examples/distributed_bakery.rs) and of the document-handle
reference counting (src/src/dochandle.rs).

Conventions of the embedding:
* Rust `u32` values are `Nat`; additions that can overflow go through
  `checkedSucc`, which returns `none` when the sum leaves the u32 range
  (the Rust build of the example has overflow checks, so an overflowing
  addition aborts the process; `none` models that abort).
* A Rust `HashMap` is a canonical association list sorted strictly by
  key; equality of canonical lists coincides with map equality.
* Code paths that `unwrap` a lookup return `Option`; `none` models the
  panic on a missing key.
* `HashMap` iteration order is unspecified in Rust, so every function
  whose result can depend on it takes the iteration order as an explicit
  list parameter (a permutation of the canonical entry list).
-/

/-- Upper bound of the Rust u32 range. -/
def u32Max : Nat := 4294967295

/-- Checked u32 increment: models `n + 1` on a u32 under overflow checks. -/
def checkedSucc (n : Nat) : Option Nat :=
  if n + 1 ≤ u32Max then some (n + 1) else none

/-- Lexicographic order on character lists. -/
def charListLt : List Char → List Char → Bool
  | [], [] => false
  | [], _ :: _ => true
  | _ :: _, [] => false
  | a :: as, b :: bs => if a < b then true else if b < a then false else charListLt as bs

/-- Lexicographic order on strings; models the Rust `String` ordering
used by the tie-break comparison `customer_id < id` (byte order and
scalar order agree on UTF-8). -/
def strLt (a b : String) : Bool := charListLt a.data b.data

/-- Lookup in an association list; models `HashMap::get`. -/
def mapGet {α : Type} (k : String) : List (String × α) → Option α
  | [] => none
  | p :: rest => if p.1 = k then some p.2 else mapGet k rest

/-- Insert into a key-sorted association list, replacing an existing
binding; models `HashMap::insert` on the canonical representation. -/
def insertSorted {α : Type} (k : String) (v : α) : List (String × α) → List (String × α)
  | [] => [(k, v)]
  | (k2, v2) :: rest =>
    if strLt k k2 then (k, v) :: (k2, v2) :: rest
    else if k = k2 then (k, v) :: rest
    else (k2, v2) :: insertSorted k v rest

/-- Update the binding of an existing key; `none` when the key is absent.
Models the `customers.get_mut(id).unwrap()` pattern, whose failure is a
panic. -/
def updateKey {α : Type} (k : String) (f : α → α) : List (String × α) → Option (List (String × α))
  | [] => none
  | (k2, v) :: rest =>
    if k2 = k then some ((k2, f v) :: rest)
    else
      match updateKey k f rest with
      | none => none
      | some rest2 => some ((k2, v) :: rest2)

/-- Customer record of the bakery document (struct `Customer`). -/
structure Customer where
  number : Nat
  views_of_others : List (String × Nat)
deriving DecidableEq, Repr

/-- The replicated bakery document (struct `Bakery`). -/
structure Bakery where
  customers : List (String × Customer)
  output : Nat
  output_seen : List (String × Nat)
deriving DecidableEq, Repr

/-- The ticket vector `(id, number)` of all customers, in entry order;
models `customers.iter().map(|(id, c)| (id.clone(), c.number)).collect()`. -/
def trueVector (customers : List (String × Customer)) : List (String × Nat) :=
  customers.map (fun p => (p.1, p.2.number))

/-- Guarded conjunction fold shared by the entry and exit waits: walks the
given entries and checks that each ones `views_of_others[us]` equals
`target`; once the accumulator is false, later lookups are not evaluated
(mirroring the `if !acc { acc } else { ... unwrap ... }` fold bodies);
`none` models the panic of an evaluated `unwrap` on a missing key. -/
def viewsStep (us : String) (target : Nat) (acc : Option Bool) (p : String × Customer) : Option Bool :=
  match acc with
  | none => none
  | some false => some false
  | some true =>
    match mapGet us p.2.views_of_others with
    | none => none
    | some v => some (decide (v = target))

/-- The fold itself, started from a true accumulator. -/
def viewsFold (l : List (String × Customer)) (us : String) (target : Nat) : Option Bool :=
  l.foldl (viewsStep us target) (some true)

/-- First element minimising the second component, ties resolved to the
earliest element; models `Iterator::min_by_key`, which returns the first
of several equally minimal elements. -/
def minByKeyFirst : List (String × Nat) → Option (String × Nat)
  | [] => none
  | x :: xs =>
    match minByKeyFirst xs with
    | none => some x
    | some z => if z.2 < x.2 then some z else some x

/-- Minimum of a list of naturals (`Iterator::min` on the values). -/
def minVal : List Nat → Option Nat
  | [] => none
  | v :: vs =>
    match minVal vs with
    | none => some v
    | some w => some (if v ≤ w then v else w)

/-- Maximum of a list of naturals (`Iterator::max` on the values). -/
def maxVal : List Nat → Option Nat
  | [] => none
  | v :: vs =>
    match maxVal vs with
    | none => some v
    | some w => some (if v ≤ w then w else v)

/-- Participants other than `us` holding a non-zero ticket, in the order
of the given entry list; models the `filter_map` feeding `min_by_key` in
`run_bakery_algorithm`. -/
def candidates (order : List (String × Customer)) (us : String) : List (String × Nat) :=
  order.filterMap (fun p => if p.2.number = 0 ∨ p.1 = us then none else some (p.1, p.2.number))

/-- Entry predicate of `run_bakery_algorithm` evaluated on one snapshot:
`order` is the iteration order of `customers` for this evaluation, `us`
the requesting participant, `t` the ticket `our_number`. Returns
`some true` when the critical section may be entered, `some false` when
the wait continues, `none` when an `unwrap` panics. -/
def entryPred (order : List (String × Customer)) (us : String) (t : Nat) : Option Bool :=
  match viewsFold (order.filter (fun p => p.1 != us)) us t with
  | none => none
  | some false => some false
  | some true =>
    match minByKeyFirst (candidates order us) with
    | none => some true
    | some (id, lowest) =>
      if lowest = t then some (strLt us id) else some (decide (t < lowest))

/-- Spec-side acknowledgment condition, following the claim wording: for
every other participant, its `views_of_others` entry for `us` equals `t`. -/
def specAcked (b : Bakery) (us : String) (t : Nat) : Bool :=
  b.customers.all (fun p => p.1 == us || mapGet us p.2.views_of_others == some t)

/-- Spec-side entry condition, following the wording of the claim: all
other participants acknowledge `t`, and among other participants with a
non-zero ticket either none exist, or their minimum exceeds `t`, or it
equals `t` and `us` is lexicographically below every holder of that
minimum. -/
def specEntryCond (b : Bakery) (us : String) (t : Nat) : Bool :=
  specAcked b us t &&
    match minVal ((candidates b.customers us).map (fun p => p.2)) with
    | none => true
    | some m =>
      decide (t < m) ||
        (decide (m = t) && (candidates b.customers us).all (fun p => p.2 != m || strLt us p.1))

/-- Mutation of the REQUESTING phase of `run_bakery_algorithm`: pick a
ticket one above the maximum, record the pre-pick ticket vector as our
`views_of_others`, and return the new ticket. `none` models the panics
(empty customer map, missing own record) and the overflow abort. -/
def pickNumber (b : Bakery) (us : String) : Option (Bakery × Nat) :=
  match maxVal (b.customers.map (fun p => p.2.number)) with
  | none => none
  | some highest =>
    match checkedSucc highest with
    | none => none
    | some ourNumber =>
      match updateKey us
          (fun _ => { number := ourNumber, views_of_others := trueVector b.customers }) b.customers with
      | none => none
      | some customers2 => some ({ b with customers := customers2 }, ourNumber)

/-- Mutation of `increment_output`: add one to `output` (checked) and
record the new value as our own `output_seen` entry; returns the new
document and the new output. -/
def incrementOutputMutation (b : Bakery) (us : String) : Option (Bakery × Nat) :=
  match checkedSucc b.output with
  | none => none
  | some newOut =>
    some ({ b with output := newOut, output_seen := insertSorted us newOut b.output_seen }, newOut)

/-- Wait predicate of `increment_output`: every `output_seen` value
equals the freshly written output. -/
def outputAcked (b : Bakery) (latest : Nat) : Bool :=
  b.output_seen.all (fun p => p.2 == latest)

/-- Mutation of `start_outside_the_bakery`: reset our ticket to zero.
The `none` case models the panic on a missing own record. -/
def exitMutation (b : Bakery) (us : String) : Option Bakery :=
  match updateKey us (fun c => { c with number := 0 }) b.customers with
  | none => none
  | some customers2 => some { b with customers := customers2 }

/-- Wait predicate of `start_outside_the_bakery`: every customer record,
the callers record included, shows zero as its view of the callers
ticket; `none` models the panic of the `unwrap` on a missing entry. -/
def exitSynced (b : Bakery) (us : String) : Option Bool :=
  viewsFold b.customers us 0

/-- Mutation of the acknowledger: copy the true ticket vector into our
`views_of_others` and the true output into our `output_seen` entry;
returns the new document together with the pair the loop keeps as its
last broadcast view. -/
def ackMutation (b : Bakery) (us : String) : Option (Bakery × List (String × Nat) × Nat) :=
  match updateKey us
      (fun c => { c with views_of_others := trueVector b.customers }) b.customers with
  | none => none
  | some customers2 =>
    some ({ b with
              customers := customers2
              output_seen := insertSorted us b.output b.output_seen },
          trueVector b.customers, b.output)

/-- One wakeup of the `acknowlegde_changes` loop: recompute the true
ticket vector and output; when both match the last broadcast pair,
`continue` without touching the document; otherwise commit `ackMutation`.
The boolean of the result records whether a mutation was committed. -/
def ackStep (b : Bakery) (us : String) (lastView : List (String × Nat)) (lastOut : Nat) :
    Option (Bool × Bakery × List (String × Nat) × Nat) :=
  if trueVector b.customers = lastView ∧ b.output = lastOut then
    some (false, b, lastView, lastOut)
  else
    match ackMutation b us with
    | none => none
    | some (b2, v, o) => some (true, b2, v, o)

/-- Outcome of a `changed()` wait loop over a finite wakeup schedule. -/
inductive WaitOutcome where
  | met
  | stopped
  | crashed
  | pending
deriving DecidableEq, Repr

/-- Event-driven wait loop shared by `increment_output` and
`start_outside_the_bakery`: each event is either a shutdown signal
(`none`, the `changed()` future failing) or a snapshot to evaluate the
predicate on; the loop exits at the first shutdown or the first snapshot
satisfying the predicate. -/
def runWait (pred : Bakery → Option Bool) : List (Option Bakery) → WaitOutcome
  | [] => .pending
  | none :: _ => .stopped
  | some b :: rest =>
    match pred b with
    | none => .crashed
    | some true => .met
    | some false => runWait pred rest

/-- Wait loop of `run_bakery_algorithm`: each event is either a shutdown
signal or the customer map of a snapshot in its iteration order. -/
def runEntryWait (us : String) (t : Nat) : List (Option (List (String × Customer))) → WaitOutcome
  | [] => .pending
  | none :: _ => .stopped
  | some order :: rest =>
    match entryPred order us t with
    | none => .crashed
    | some true => .met
    | some false => runEntryWait us t rest

/-- Control flow of the `increment` HTTP handler after its entry wait
terminates: `run_bakery_algorithm` returns the unit value both when the
loop exits through the entry condition and when it exits through the
shutdown `break`, so the handler proceeds to `increment_output` in both
cases. -/
def incrementEntersCS (exit2 : WaitOutcome) : Bool :=
  match exit2 with
  | .met => true
  | .stopped => true
  | .crashed => false
  | .pending => false

/-- Bakery invariant of the claims: every acknowledged output is at most
the current output. -/
def OutputSeenInv (b : Bakery) : Prop :=
  ∀ p ∈ b.output_seen, p.2 ≤ b.output

instance (b : Bakery) : Decidable (OutputSeenInv b) := by
  unfold OutputSeenInv; infer_instance

/-- Initial document built in `main` for the hardcoded participant set:
every ticket starts at the `u32::MAX` sentinel, every view reads the
sentinel, the output and all `output_seen` entries are zero. -/
def initialBakery : Bakery :=
  { customers :=
      [("1", ⟨u32Max, [("1", u32Max), ("2", u32Max), ("3", u32Max)]⟩),
       ("2", ⟨u32Max, [("1", u32Max), ("2", u32Max), ("3", u32Max)]⟩),
       ("3", ⟨u32Max, [("1", u32Max), ("2", u32Max), ("3", u32Max)]⟩)],
    output := 0,
    output_seen := [("1", 0), ("2", 0), ("3", 0)] }

/-- Customer holding ticket one whose view of every participant is one. -/
def cTie : Customer := ⟨1, [("1", 1), ("2", 1), ("3", 1)]⟩

/-- Converged three-way-tie document: every participant holds ticket one
and every published view reads one for every participant. Reachable by
three concurrent REQUESTING mutations from the all-zero state followed by
acknowledger convergence. -/
def sTie : Bakery :=
  { customers := [("1", cTie), ("2", cTie), ("3", cTie)],
    output := 0,
    output_seen := [("1", 0), ("2", 0), ("3", 0)] }

/-- Iteration order of the tie document that scans participant 3 before
participant 1. -/
def ordTie2 : List (String × Customer) := [("3", cTie), ("1", cTie), ("2", cTie)]

/-- Contention-free document used as a witness state: participant 1 holds
ticket 3, acknowledged by both peers, and the only other non-zero ticket
is the strictly larger 5 held by participant 2. -/
def sWitness : Bakery :=
  { customers :=
      [("1", ⟨3, [("1", 0)]⟩),
       ("2", ⟨5, [("1", 3)]⟩),
       ("3", ⟨0, [("1", 3)]⟩)],
    output := 0,
    output_seen := [] }

-- Handle lifecycle model (src/src/dochandle.rs).

/-- Operations on the family of handles of one document. -/
inductive HandleOp where
  | hclone
  | hdrop
deriving DecidableEq, Repr

/-- State of the shared counter of `DocHandle`: `count` is the value of
the shared `AtomicUsize`, `owners` the number of live handles (a ghost
quantity, not stored by the code), `closes` the number of `DocClosed`
notifications sent so far (ghost as well). -/
structure HandleState where
  count : Nat
  owners : Nat
  closes : Nat
deriving DecidableEq, Repr

/-- One clone or drop. Clone runs `fetch_add(1)`. Drop runs
`fetch_sub(1)` and sends `DocClosed` exactly when the value returned by
`fetch_sub` — the count before the decrement — equals zero. -/
def handleStep (s : HandleState) : HandleOp → HandleState
  | .hclone => { s with count := s.count + 1, owners := s.owners + 1 }
  | .hdrop =>
    { count := s.count - 1,
      owners := s.owners - 1,
      closes := if s.count = 0 then s.closes + 1 else s.closes }

/-- Run a sequence of clone and drop operations. -/
def handleRun (s : HandleState) : List HandleOp → HandleState
  | [] => s
  | op :: ops => handleRun (handleStep s op) ops

/-- Modelled from the spec: the repository-side constructor of the first
handle is not under src/; the spec states that cloning increments and
dropping decrements the shared count and that the count reaching zero
coincides with the last owner going away, so the count of the single
initial handle is one. -/
def initialHandleState : HandleState := ⟨1, 1, 0⟩

/-- A sequence of handle operations is valid when no drop happens while
no handle is live; `n` is the number of live handles. -/
def validOps : Nat → List HandleOp → Bool
  | _, [] => true
  | n, .hclone :: ops => validOps (n + 1) ops
  | n, .hdrop :: ops => decide (0 < n) && validOps (n - 1) ops


-- Helper lemmas about the map and fold primitives.

theorem foldl_viewsStep_none (l : List (String × Customer)) (us : String) (t : Nat) :
    l.foldl (viewsStep us t) none = none := by
  induction l with
  | nil => rfl
  | cons p rest ih => simpa [viewsStep] using ih

theorem foldl_viewsStep_false (l : List (String × Customer)) (us : String) (t : Nat) :
    l.foldl (viewsStep us t) (some false) = some false := by
  induction l with
  | nil => rfl
  | cons p rest ih => simpa [viewsStep] using ih

theorem viewsFold_cons (p : String × Customer) (l : List (String × Customer)) (us : String) (t : Nat) :
    viewsFold (p :: l) us t =
      match mapGet us p.2.views_of_others with
      | none => none
      | some v => if v = t then viewsFold l us t else some false := by
  cases hv : mapGet us p.2.views_of_others with
  | none => simp [viewsFold, viewsStep, hv, foldl_viewsStep_none]
  | some v =>
    by_cases hvt : v = t
    · simp [viewsFold, viewsStep, hv, hvt]
    · simp [viewsFold, viewsStep, hv, hvt, foldl_viewsStep_false]

theorem viewsFold_eq_true_iff (l : List (String × Customer)) (us : String) (t : Nat) :
    viewsFold l us t = some true ↔ ∀ p ∈ l, mapGet us p.2.views_of_others = some t := by
  induction l with
  | nil => simp [viewsFold]
  | cons p rest ih =>
    rw [viewsFold_cons]
    cases hv : mapGet us p.2.views_of_others with
    | none => simp [hv]
    | some v =>
      by_cases hvt : v = t
      · subst hvt; simp [hv, ih]
      · simp [hv, hvt]

theorem minByKeyFirst_eq_none_nil (l : List (String × Nat))
    (h : minByKeyFirst l = none) : l = [] := by
  cases l with
  | nil => rfl
  | cons x xs =>
    rw [minByKeyFirst] at h
    cases hm : minByKeyFirst xs with
    | none => rw [hm] at h; cases h
    | some w =>
      rw [hm] at h
      dsimp only at h
      by_cases hlt : w.2 < x.2 <;> simp [hlt] at h

theorem minByKeyFirst_mem (l : List (String × Nat)) (z : String × Nat)
    (h : minByKeyFirst l = some z) : z ∈ l := by
  induction l generalizing z with
  | nil => cases h
  | cons x xs ih =>
    rw [minByKeyFirst] at h
    cases hm : minByKeyFirst xs with
    | none => rw [hm] at h; dsimp only at h; cases h; exact List.mem_cons_self x xs
    | some w =>
      rw [hm] at h
      dsimp only at h
      by_cases hlt : w.2 < x.2
      · rw [if_pos hlt] at h; cases h; exact List.mem_cons_of_mem x (ih z hm)
      · rw [if_neg hlt] at h; cases h; exact List.mem_cons_self x xs

theorem minByKeyFirst_le (l : List (String × Nat)) (z : String × Nat)
    (h : minByKeyFirst l = some z) : ∀ q ∈ l, z.2 ≤ q.2 := by
  induction l generalizing z with
  | nil => cases h
  | cons x xs ih =>
    rw [minByKeyFirst] at h
    cases hm : minByKeyFirst xs with
    | none =>
      rw [hm] at h; dsimp only at h; cases h
      intro q hq
      rcases List.mem_cons.mp hq with hq | hq
      · exact hq ▸ Nat.le_refl _
      · rw [minByKeyFirst_eq_none_nil xs hm] at hq; cases hq
    | some w =>
      rw [hm] at h
      dsimp only at h
      by_cases hlt : w.2 < x.2
      · rw [if_pos hlt] at h; cases h
        intro q hq
        rcases List.mem_cons.mp hq with hq | hq
        · exact hq ▸ Nat.le_of_lt hlt
        · exact ih z hm q hq
      · rw [if_neg hlt] at h; cases h
        intro q hq
        rcases List.mem_cons.mp hq with hq | hq
        · exact hq ▸ Nat.le_refl _
        · exact Nat.le_trans (Nat.le_of_not_lt hlt) (ih w hm q hq)

theorem minVal_eq_none_nil (l : List Nat) (h : minVal l = none) : l = [] := by
  cases l with
  | nil => rfl
  | cons v vs =>
    rw [minVal] at h
    cases hm : minVal vs with
    | none => rw [hm] at h; cases h
    | some w => rw [hm] at h; cases h

theorem minVal_mem (l : List Nat) (m : Nat) (h : minVal l = some m) : m ∈ l := by
  induction l generalizing m with
  | nil => cases h
  | cons v vs ih =>
    rw [minVal] at h
    cases hm : minVal vs with
    | none => rw [hm] at h; dsimp only at h; cases h; exact List.mem_cons_self v vs
    | some w =>
      rw [hm] at h
      dsimp only at h
      by_cases hvw : v ≤ w
      · rw [if_pos hvw] at h; cases h; exact List.mem_cons_self v vs
      · rw [if_neg hvw] at h; cases h; exact List.mem_cons_of_mem v (ih m hm)

theorem minVal_le (l : List Nat) (m : Nat) (h : minVal l = some m) : ∀ v ∈ l, m ≤ v := by
  induction l generalizing m with
  | nil => cases h
  | cons v vs ih =>
    rw [minVal] at h
    cases hm : minVal vs with
    | none =>
      rw [hm] at h; dsimp only at h; cases h
      intro q hq
      rcases List.mem_cons.mp hq with hq | hq
      · exact hq ▸ Nat.le_refl _
      · rw [minVal_eq_none_nil vs hm] at hq; cases hq
    | some w =>
      rw [hm] at h
      dsimp only at h
      by_cases hvw : v ≤ w
      · rw [if_pos hvw] at h; cases h
        intro q hq
        rcases List.mem_cons.mp hq with hq | hq
        · exact hq ▸ Nat.le_refl _
        · exact Nat.le_trans hvw (ih w hm q hq)
      · rw [if_neg hvw] at h; cases h
        intro q hq
        rcases List.mem_cons.mp hq with hq | hq
        · exact hq ▸ Nat.le_of_not_le hvw
        · exact ih m hm q hq

theorem minVal_eq_some (l : List Nat) (m : Nat) (hm : m ∈ l) (hle : ∀ v ∈ l, m ≤ v) :
    minVal l = some m := by
  induction l with
  | nil => cases hm
  | cons v vs ih =>
    rw [minVal]
    cases hmv : minVal vs with
    | none =>
      rw [minVal_eq_none_nil vs hmv] at hm hle
      rcases List.mem_cons.mp hm with hm | hm
      · exact congrArg some hm.symm
      · cases hm
    | some w =>
      have hwm : w ∈ vs := minVal_mem vs w hmv
      dsimp only
      rcases List.mem_cons.mp hm with hm2 | hm2
      · subst hm2
        have h1 : m ≤ w := hle w (List.mem_cons_of_mem m hwm)
        rw [if_pos h1]
      · have h1 : w ≤ m := minVal_le vs w hmv m hm2
        have h2 : m ≤ w := hle w (List.mem_cons_of_mem v hwm)
        have h3 : w = m := Nat.le_antisymm h1 h2
        subst h3
        have h4 : w ≤ v := hle v (List.mem_cons_self v vs)
        by_cases h5 : v ≤ w
        · rw [if_pos h5]; exact congrArg some (Nat.le_antisymm h5 h4)
        · rw [if_neg h5]

theorem checkedSucc_eq_some (n m : Nat) (h : checkedSucc n = some m) : m = n + 1 := by
  unfold checkedSucc at h
  by_cases hle : n + 1 ≤ u32Max
  · rw [if_pos hle] at h; cases h; rfl
  · rw [if_neg hle] at h; cases h

theorem updateKey_self {α : Type} (k : String) (f : α → α) (l l2 : List (String × α))
    (h : updateKey k f l = some l2) :
    ∃ v, mapGet k l = some v ∧ mapGet k l2 = some (f v) := by
  induction l generalizing l2 with
  | nil => cases h
  | cons p rest ih =>
    obtain ⟨k2, v⟩ := p
    rw [updateKey] at h
    by_cases hk : k2 = k
    · rw [if_pos hk] at h; cases h
      subst hk
      exact ⟨v, by simp [mapGet], by simp [mapGet]⟩
    · rw [if_neg hk] at h
      cases hrest : updateKey k f rest with
      | none => rw [hrest] at h; cases h
      | some rest2 =>
        rw [hrest] at h; dsimp only at h; cases h
        obtain ⟨w, hw1, hw2⟩ := ih rest2 hrest
        exact ⟨w, by simp [mapGet, hk, hw1], by simp [mapGet, hk, hw2]⟩

theorem updateKey_other {α : Type} (k j : String) (f : α → α) (l l2 : List (String × α))
    (h : updateKey k f l = some l2) (hj : j ≠ k) : mapGet j l2 = mapGet j l := by
  induction l generalizing l2 with
  | nil => cases h
  | cons p rest ih =>
    obtain ⟨k2, v⟩ := p
    rw [updateKey] at h
    by_cases hk : k2 = k
    · rw [if_pos hk] at h; cases h
      subst hk
      have hne : k2 ≠ j := fun hh => hj hh.symm
      simp [mapGet, hne]
    · rw [if_neg hk] at h
      cases hrest : updateKey k f rest with
      | none => rw [hrest] at h; cases h
      | some rest2 =>
        rw [hrest] at h; dsimp only at h; cases h
        simp [mapGet, ih rest2 hrest]

theorem mapGet_insertSorted_self {α : Type} (k : String) (v : α) (l : List (String × α)) :
    mapGet k (insertSorted k v l) = some v := by
  induction l with
  | nil => simp [insertSorted, mapGet]
  | cons p rest ih =>
    obtain ⟨k2, v2⟩ := p
    rw [insertSorted]
    by_cases h1 : strLt k k2 = true
    · rw [if_pos h1]; simp [mapGet]
    · rw [if_neg h1]
      by_cases h2 : k = k2
      · rw [if_pos h2]; simp [mapGet]
      · rw [if_neg h2]
        have hne : k2 ≠ k := fun hh => h2 hh.symm
        simp [mapGet, hne, ih]

theorem mem_insertSorted {α : Type} (k : String) (v : α) (l : List (String × α))
    (p : String × α) (h : p ∈ insertSorted k v l) : p = (k, v) ∨ p ∈ l := by
  induction l with
  | nil =>
    rw [insertSorted] at h
    rcases List.mem_cons.mp h with h | h
    · exact Or.inl h
    · cases h
  | cons q rest ih =>
    obtain ⟨k2, v2⟩ := q
    rw [insertSorted] at h
    by_cases h1 : strLt k k2 = true
    · rw [if_pos h1] at h
      rcases List.mem_cons.mp h with h | h
      · exact Or.inl h
      · exact Or.inr h
    · rw [if_neg h1] at h
      by_cases h2 : k = k2
      · rw [if_pos h2] at h
        rcases List.mem_cons.mp h with h | h
        · exact Or.inl h
        · exact Or.inr (List.mem_cons_of_mem _ h)
      · rw [if_neg h2] at h
        rcases List.mem_cons.mp h with h | h
        · exact Or.inr (h ▸ List.mem_cons_self _ rest)
        · rcases ih h with h3 | h3
          · exact Or.inl h3
          · exact Or.inr (List.mem_cons_of_mem _ h3)

theorem specAcked_eq_true_iff (b : Bakery) (us : String) (t : Nat) :
    specAcked b us t = true ↔
      ∀ p ∈ b.customers, p.1 ≠ us → mapGet us p.2.views_of_others = some t := by
  unfold specAcked
  rw [List.all_eq_true]
  constructor
  · intro H p hp hne
    have h1 := H p hp
    simp only [Bool.or_eq_true, beq_iff_eq] at h1
    rcases h1 with h1 | h1
    · exact absurd h1 hne
    · exact h1
  · intro H p hp
    simp only [Bool.or_eq_true, beq_iff_eq]
    by_cases hne : p.1 = us
    · exact Or.inl hne
    · exact Or.inr (H p hp hne)

theorem entryAcked_eq_true_iff (order : List (String × Customer)) (us : String) (t : Nat) :
    viewsFold (order.filter (fun p => p.1 != us)) us t = some true ↔
      ∀ p ∈ order, p.1 ≠ us → mapGet us p.2.views_of_others = some t := by
  rw [viewsFold_eq_true_iff]
  constructor
  · intro H p hp hne
    exact H p (List.mem_filter.mpr ⟨hp, by simpa [bne_iff_ne] using hne⟩)
  · intro H p hp
    obtain ⟨h1, h2⟩ := List.mem_filter.mp hp
    exact H p h1 (by simpa [bne_iff_ne] using h2)

theorem runWait_met_iff (pred : Bakery → Option Bool) (evs : List Bakery)
    (hsafe : ∀ b ∈ evs, pred b ≠ none) :
    runWait pred (evs.map some) = WaitOutcome.met ↔ ∃ b ∈ evs, pred b = some true := by
  induction evs with
  | nil =>
    constructor
    · intro h; simp [runWait] at h
    · rintro ⟨b, hb, _⟩; cases hb
  | cons b rest ih =>
    cases hb : pred b with
    | none => exact absurd hb (hsafe b (List.mem_cons_self b rest))
    | some v =>
      cases v with
      | true =>
        constructor
        · intro _; exact ⟨b, List.mem_cons_self b rest, hb⟩
        · intro _; simp [runWait, hb]
      | false =>
        have ih2 := ih (fun x hx => hsafe x (List.mem_cons_of_mem b hx))
        constructor
        · intro h
          simp only [List.map_cons, runWait, hb] at h
          obtain ⟨x, hx, hpx⟩ := ih2.mp h
          exact ⟨x, List.mem_cons_of_mem b hx, hpx⟩
        · rintro ⟨x, hx, hpx⟩
          rcases List.mem_cons.mp hx with hx | hx
          · rw [hx] at hpx; rw [hpx] at hb; cases hb
          · simp only [List.map_cons, runWait, hb]
            exact ih2.mpr ⟨x, hx, hpx⟩

-- Claim theorems.

/-- C3: whenever the REQUESTING mutation of `run_bakery_algorithm`
completes, it returns a ticket equal to the maximum of all known tickets
plus one, stores that ticket and the pre-pick ticket snapshot in the
requesters customer record, and leaves every other customer record, the
output and the acknowledgment map unchanged. -/
theorem c3_requesting_mutation (b b2 : Bakery) (us : String) (t : Nat)
    (h : pickNumber b us = some (b2, t)) :
    (∃ highest, maxVal (b.customers.map (fun p => p.2.number)) = some highest ∧ t = highest + 1) ∧
    mapGet us b2.customers = some ⟨t, trueVector b.customers⟩ ∧
    (∀ id, id ≠ us → mapGet id b2.customers = mapGet id b.customers) ∧
    b2.output = b.output ∧ b2.output_seen = b.output_seen := by
  unfold pickNumber at h
  cases hmax : maxVal (b.customers.map (fun p => p.2.number)) with
  | none => rw [hmax] at h; cases h
  | some highest =>
    rw [hmax] at h; dsimp only at h
    cases hsucc : checkedSucc highest with
    | none => rw [hsucc] at h; cases h
    | some ourNumber =>
      rw [hsucc] at h; dsimp only at h
      cases hupd : updateKey us
          (fun _ => ⟨ourNumber, trueVector b.customers⟩) b.customers with
      | none => rw [hupd] at h; cases h
      | some customers2 =>
        rw [hupd] at h; dsimp only at h
        rw [Option.some_inj, Prod.mk.injEq] at h
        obtain ⟨h1, h2⟩ := h
        subst h1
        subst h2
        refine ⟨⟨highest, rfl, checkedSucc_eq_some highest ourNumber hsucc⟩, ?_, ?_, rfl, rfl⟩
        · obtain ⟨v, _, hv2⟩ := updateKey_self us _ b.customers customers2 hupd
          simpa using hv2
        · intro id hid
          exact updateKey_other us id _ b.customers customers2 hupd hid

/-- Witness for C3 at a concrete two-customer document. -/
theorem c3_requesting_mutation_witness :
    mapGet "1" ((⟨[("1", ⟨1, [("1", 0), ("2", 0)]⟩), ("2", ⟨0, []⟩)], 0, []⟩ : Bakery).customers) =
      some ⟨1, trueVector ((⟨[("1", ⟨0, []⟩), ("2", ⟨0, []⟩)], 0, []⟩ : Bakery).customers)⟩ :=
  (c3_requesting_mutation ⟨[("1", ⟨0, []⟩), ("2", ⟨0, []⟩)], 0, []⟩
    ⟨[("1", ⟨1, [("1", 0), ("2", 0)]⟩), ("2", ⟨0, []⟩)], 0, []⟩ "1" 1 (by decide)).2.1

/-- C5: the `increment_output` mutation adds exactly one to the output
and records the new value as the callers `output_seen` entry, changing
nothing else; the subsequent wait is satisfied exactly when every known
`output_seen` entry equals the new value, and the event loop exits with
the condition met exactly when some wakeup snapshot satisfies it. -/
theorem c5_increment_output_spec :
    (∀ b b2 : Bakery, ∀ us : String, ∀ t : Nat,
       incrementOutputMutation b us = some (b2, t) →
         t = b.output + 1 ∧ b2.output = t ∧
         b2.output_seen = insertSorted us t b.output_seen ∧
         mapGet us b2.output_seen = some t ∧ b2.customers = b.customers) ∧
    (∀ b : Bakery, ∀ t : Nat, outputAcked b t = true ↔ ∀ p ∈ b.output_seen, p.2 = t) ∧
    (∀ t : Nat, ∀ evs : List Bakery,
       runWait (fun b => some (outputAcked b t)) (evs.map some) = WaitOutcome.met ↔
         ∃ b ∈ evs, outputAcked b t = true) := by
  refine ⟨?_, ?_, ?_⟩
  · intro b b2 us t h
    unfold incrementOutputMutation at h
    cases hsucc : checkedSucc b.output with
    | none => rw [hsucc] at h; cases h
    | some newOut =>
      rw [hsucc] at h; dsimp only at h
      rw [Option.some_inj, Prod.mk.injEq] at h
      obtain ⟨h1, h2⟩ := h
      subst h1
      subst h2
      exact ⟨checkedSucc_eq_some _ _ hsucc, rfl, rfl,
        mapGet_insertSorted_self us newOut b.output_seen, rfl⟩
  · intro b t
    unfold outputAcked
    rw [List.all_eq_true]
    constructor
    · intro H p hp; simpa using H p hp
    · intro H p hp; simpa using H p hp
  · intro t evs
    have h := runWait_met_iff (fun b => some (outputAcked b t)) evs (fun b _ => by simp)
    simpa using h

/-- Witness for C5 at a concrete document with output zero. -/
theorem c5_increment_output_witness :
    (⟨[], 1, [("1", 1)]⟩ : Bakery).output = 1 :=
  (c5_increment_output_spec.1 ⟨[], 0, [("1", 0)]⟩ ⟨[], 1, [("1", 1)]⟩ "1" 1 (by decide)).2.1

/-- C6: the exit mutation of `start_outside_the_bakery` resets the
callers ticket to zero and changes nothing else; the subsequent wait is
satisfied exactly when every customer record, the callers own record
included, shows zero as its view of the callers ticket, and the event
loop exits with the condition met exactly when some wakeup snapshot
satisfies it. -/
theorem c6_exit_protocol_spec :
    (∀ b b2 : Bakery, ∀ us : String, exitMutation b us = some b2 →
       (∃ c, mapGet us b.customers = some c ∧
          mapGet us b2.customers = some { c with number := 0 }) ∧
       (∀ id, id ≠ us → mapGet id b2.customers = mapGet id b.customers) ∧
       b2.output = b.output ∧ b2.output_seen = b.output_seen) ∧
    (∀ b : Bakery, ∀ us : String, exitSynced b us = some true ↔
       ∀ p ∈ b.customers, mapGet us p.2.views_of_others = some 0) ∧
    (∀ us : String, ∀ evs : List Bakery,
       (∀ b ∈ evs, exitSynced b us ≠ none) →
       (runWait (fun b => exitSynced b us) (evs.map some) = WaitOutcome.met ↔
         ∃ b ∈ evs, exitSynced b us = some true)) := by
  refine ⟨?_, ?_, ?_⟩
  · intro b b2 us h
    unfold exitMutation at h
    cases hupd : updateKey us (fun c => { c with number := 0 }) b.customers with
    | none => rw [hupd] at h; cases h
    | some customers2 =>
      rw [hupd] at h; dsimp only at h
      cases h
      refine ⟨?_, ?_, rfl, rfl⟩
      · obtain ⟨c, hc1, hc2⟩ := updateKey_self us _ b.customers customers2 hupd
        exact ⟨c, hc1, by simpa using hc2⟩
      · intro id hid
        exact updateKey_other us id _ b.customers customers2 hupd hid
  · intro b us
    exact viewsFold_eq_true_iff b.customers us 0
  · intro us evs hsafe
    exact runWait_met_iff _ evs hsafe

/-- Witness for C6 at a concrete one-customer document. -/
theorem c6_exit_protocol_witness :
    ∃ c, mapGet "1" ((⟨[("1", ⟨5, []⟩)], 0, []⟩ : Bakery).customers) = some c ∧
      mapGet "1" ((⟨[("1", ⟨0, []⟩)], 0, []⟩ : Bakery).customers) =
        some { c with number := 0 } :=
  (c6_exit_protocol_spec.1 ⟨[("1", ⟨5, []⟩)], 0, []⟩ ⟨[("1", ⟨0, []⟩)], 0, []⟩ "1" (by decide)).1

/-- C7: the invariant that every `output_seen` entry is at most `output`
holds of the initial document and is preserved by the completed
`increment_output` mutation and by the completed acknowledger mutation. -/
theorem c7_output_seen_invariant :
    OutputSeenInv initialBakery ∧
    (∀ b b2 : Bakery, ∀ us : String, ∀ t : Nat, OutputSeenInv b →
       incrementOutputMutation b us = some (b2, t) → OutputSeenInv b2) ∧
    (∀ b b2 : Bakery, ∀ us : String, ∀ v : List (String × Nat), ∀ o : Nat, OutputSeenInv b →
       ackMutation b us = some (b2, v, o) → OutputSeenInv b2) := by
  refine ⟨by decide, ?_, ?_⟩
  · intro b b2 us t hinv h
    unfold incrementOutputMutation at h
    cases hsucc : checkedSucc b.output with
    | none => rw [hsucc] at h; cases h
    | some newOut =>
      rw [hsucc] at h; dsimp only at h
      rw [Option.some_inj, Prod.mk.injEq] at h
      obtain ⟨h1, h2⟩ := h
      subst h1
      have hno : newOut = b.output + 1 := checkedSucc_eq_some _ _ hsucc
      intro p hp
      rcases mem_insertSorted us newOut b.output_seen p hp with h3 | h3
      · rw [h3]
      · show p.2 ≤ newOut
        exact Nat.le_trans (hinv p h3) (by omega)
  · intro b b2 us v o hinv h
    unfold ackMutation at h
    cases hupd : updateKey us
        (fun c => { c with views_of_others := trueVector b.customers }) b.customers with
    | none => rw [hupd] at h; cases h
    | some customers2 =>
      rw [hupd] at h; dsimp only at h
      rw [Option.some_inj, Prod.mk.injEq] at h
      obtain ⟨h1, h2⟩ := h
      subst h1
      intro p hp
      rcases mem_insertSorted us b.output b.output_seen p hp with h3 | h3
      · rw [h3]
      · exact hinv p h3

/-- Witness for C7: the invariant transported through a concrete
increment mutation. -/
theorem c7_output_seen_invariant_witness : OutputSeenInv ⟨[], 1, [("1", 1)]⟩ :=
  c7_output_seen_invariant.2.1 ⟨[], 0, [("1", 0)]⟩ ⟨[], 1, [("1", 1)]⟩ "1" 1
    (by decide) (by decide)

/-- C8: one wakeup of the acknowledger commits a mutation exactly when
the true ticket vector or the true output differs from the last
broadcast pair; without a difference the document is returned unchanged
and no mutation runs, and a commit copies the true ticket vector into
the participants `views_of_others` and the true output into its
`output_seen` entry, leaving every other field and record unchanged. -/
theorem c8_acknowledger_step (b b2 : Bakery) (us : String)
    (lastView v : List (String × Nat)) (lastOut o : Nat) (committed : Bool)
    (h : ackStep b us lastView lastOut = some (committed, b2, v, o)) :
    (committed = false ↔ trueVector b.customers = lastView ∧ b.output = lastOut) ∧
    (committed = false → b2 = b ∧ v = lastView ∧ o = lastOut) ∧
    (committed = true →
      v = trueVector b.customers ∧ o = b.output ∧
      b2.output = b.output ∧
      b2.output_seen = insertSorted us b.output b.output_seen ∧
      mapGet us b2.output_seen = some b.output ∧
      (∃ c, mapGet us b.customers = some c ∧
         mapGet us b2.customers = some { c with views_of_others := trueVector b.customers }) ∧
      (∀ id, id ≠ us → mapGet id b2.customers = mapGet id b.customers)) := by
  unfold ackStep at h
  by_cases hc : trueVector b.customers = lastView ∧ b.output = lastOut
  · rw [if_pos hc] at h
    rw [Option.some_inj, Prod.mk.injEq, Prod.mk.injEq, Prod.mk.injEq] at h
    obtain ⟨h1, h2, h3, h4⟩ := h
    subst h1
    subst h2
    subst h3
    subst h4
    exact ⟨⟨fun _ => hc, fun _ => rfl⟩, fun _ => ⟨rfl, rfl, rfl⟩,
      fun hh => absurd hh (by decide)⟩
  · rw [if_neg hc] at h
    unfold ackMutation at h
    cases hupd : updateKey us
        (fun c => { c with views_of_others := trueVector b.customers }) b.customers with
    | none => rw [hupd] at h; cases h
    | some customers2 =>
      rw [hupd] at h; dsimp only at h
      rw [Option.some_inj, Prod.mk.injEq, Prod.mk.injEq, Prod.mk.injEq] at h
      obtain ⟨h1, h2, h3, h4⟩ := h
      subst h1
      subst h2
      subst h3
      subst h4
      refine ⟨⟨fun hh => absurd hh (by decide), fun hcc => absurd hcc hc⟩,
        fun hh => absurd hh (by decide), fun _ => ?_⟩
      refine ⟨rfl, rfl, rfl, rfl, mapGet_insertSorted_self us b.output b.output_seen, ?_, ?_⟩
      · obtain ⟨c, hc1, hc2⟩ := updateKey_self us _ b.customers customers2 hupd
        exact ⟨c, hc1, by simpa using hc2⟩
      · intro id hid
        exact updateKey_other us id _ b.customers customers2 hupd hid

/-- Witness for C8 at a concrete document whose last broadcast view is
stale, so the step commits. -/
theorem c8_acknowledger_step_witness :
    ([("1", 1)] : List (String × Nat)) =
      trueVector ((⟨[("1", ⟨1, []⟩)], 0, [("1", 0)]⟩ : Bakery).customers) :=
  ((c8_acknowledger_step ⟨[("1", ⟨1, []⟩)], 0, [("1", 0)]⟩
      ⟨[("1", ⟨1, [("1", 1)]⟩)], 0, [("1", 0)]⟩ "1" [] [("1", 1)] 0 0 true
      (by decide)).2.2 rfl).1

/-- Count-equals-owners invariant of the handle model: along any valid
operation sequence the shared counter tracks the number of live owners
and no close notification is ever sent. -/
theorem handleRun_inv (ops : List HandleOp) :
    ∀ s : HandleState, s.count = s.owners → validOps s.owners ops = true →
      (handleRun s ops).count = (handleRun s ops).owners ∧
        (handleRun s ops).closes = s.closes := by
  induction ops with
  | nil => intro s h1 _; exact ⟨h1, rfl⟩
  | cons op rest ih =>
    intro s h1 h2
    cases op with
    | hclone =>
      rw [validOps] at h2
      rw [handleRun]
      have hstep1 : (handleStep s .hclone).count = (handleStep s .hclone).owners := by
        simp [handleStep, h1]
      have hstep2 : (handleStep s .hclone).owners = s.owners + 1 := by simp [handleStep]
      have hstep3 : (handleStep s .hclone).closes = s.closes := by simp [handleStep]
      obtain ⟨ha, hb⟩ := ih (handleStep s .hclone) hstep1 (by rw [hstep2]; exact h2)
      exact ⟨ha, by rw [hb, hstep3]⟩
    | hdrop =>
      rw [validOps, Bool.and_eq_true] at h2
      obtain ⟨h3, h4⟩ := h2
      have h5 : 0 < s.owners := of_decide_eq_true h3
      have h6 : ¬s.count = 0 := by rw [h1]; omega
      rw [handleRun]
      have hstep1 : (handleStep s .hdrop).count = (handleStep s .hdrop).owners := by
        simp [handleStep, h1]
      have hstep2 : (handleStep s .hdrop).owners = s.owners - 1 := by simp [handleStep]
      have hstep3 : (handleStep s .hdrop).closes = s.closes := by simp [handleStep, h6]
      obtain ⟨ha, hb⟩ := ih (handleStep s .hdrop) hstep1 (by rw [hstep2]; exact h4)
      exact ⟨ha, by rw [hb, hstep3]⟩

/-- C10: along every valid sequence of clones and drops starting from
the single initial handle, the `DocClosed` notification is never sent —
in particular it is not sent on the drop that takes the owner count to
zero, because `fetch_sub` returns the count before the decrement and the
code compares that value with zero. -/
theorem c10_close_notification_skipped (ops : List HandleOp)
    (h : validOps 1 ops = true) :
    (handleRun initialHandleState ops).count = (handleRun initialHandleState ops).owners ∧
      (handleRun initialHandleState ops).closes = 0 :=
  handleRun_inv ops initialHandleState rfl h

/-- Witness for C10: a clone followed by two drops leaves zero owners
and zero close notifications. -/
theorem c10_close_notification_skipped_witness :
    (handleRun initialHandleState [HandleOp.hclone, HandleOp.hdrop, HandleOp.hdrop]).closes = 0 :=
  (c10_close_notification_skipped [HandleOp.hclone, HandleOp.hdrop, HandleOp.hdrop] (by decide)).2

/-- C2 counterexample: on the converged three-way-tie snapshot, with a
legitimate iteration order of the customer map, the entry predicate of
participant 2 returns true although the spec-side entry condition is
false (participant 1, a holder of the minimal tied ticket, is
lexicographically below participant 2). -/
theorem c2_entry_predicate_counterexample :
    ordTie2.Perm sTie.customers ∧
    entryPred ordTie2 "2" 1 = some true ∧
    specEntryCond sTie "2" 1 = false := by
  refine ⟨by decide, by decide, by decide⟩

/-- C2 amended: when the minimal non-zero ticket among the other
participants is attained by at most one of them, the entry predicate
agrees with the spec-side condition for every iteration order of the
customer map. -/
theorem c2_entry_predicate_amended (b : Bakery) (order : List (String × Customer))
    (us : String) (t : Nat) (r : Bool)
    (hperm : order.Perm b.customers)
    (huniq : ∀ p ∈ candidates b.customers us, ∀ q ∈ candidates b.customers us,
       (∀ s ∈ candidates b.customers us, p.2 ≤ s.2) →
       (∀ s ∈ candidates b.customers us, q.2 ≤ s.2) → p = q)
    (hres : entryPred order us t = some r) :
    r = true ↔ specEntryCond b us t = true := by
  have hackiff :
      viewsFold (order.filter (fun p => p.1 != us)) us t = some true ↔
        specAcked b us t = true := by
    rw [entryAcked_eq_true_iff, specAcked_eq_true_iff]
    constructor
    · intro H p hp hne; exact H p (hperm.mem_iff.mpr hp) hne
    · intro H p hp hne; exact H p (hperm.mem_iff.mp hp) hne
  unfold entryPred at hres
  cases hvf : viewsFold (order.filter (fun p => p.1 != us)) us t with
  | none => rw [hvf] at hres; cases hres
  | some acked =>
    rw [hvf] at hres
    cases acked with
    | false =>
      dsimp only at hres
      rw [Option.some_inj] at hres
      subst hres
      have hsa : specAcked b us t = false := by
        cases hsa2 : specAcked b us t with
        | false => rfl
        | true => rw [hackiff.mpr hsa2] at hvf; cases hvf
      unfold specEntryCond
      rw [hsa]
      simp
    | true =>
      dsimp only at hres
      have hsa : specAcked b us t = true := hackiff.mp hvf
      have hcandperm : (candidates order us).Perm (candidates b.customers us) :=
        hperm.filterMap _
      cases hmin : minByKeyFirst (candidates order us) with
      | none =>
        rw [hmin] at hres; dsimp only at hres
        rw [Option.some_inj] at hres
        subst hres
        have hnil : candidates b.customers us = [] := by
          have h1 := minByKeyFirst_eq_none_nil _ hmin
          rw [h1] at hcandperm
          exact hcandperm.symm.eq_nil
        unfold specEntryCond
        rw [hsa, hnil]
        simp [minVal]
      | some z =>
        obtain ⟨i, m⟩ := z
        rw [hmin] at hres; dsimp only at hres
        have hzmem : (i, m) ∈ candidates b.customers us :=
          hcandperm.mem_iff.mp (minByKeyFirst_mem _ _ hmin)
        have hzle : ∀ q ∈ candidates b.customers us, m ≤ q.2 := by
          intro q hq
          exact minByKeyFirst_le _ _ hmin q (hcandperm.mem_iff.mpr hq)
        have hminval : minVal ((candidates b.customers us).map (fun p => p.2)) = some m := by
          apply minVal_eq_some
          · exact List.mem_map.mpr ⟨(i, m), hzmem, rfl⟩
          · intro v hv
            obtain ⟨q, hq, hqe⟩ := List.mem_map.mp hv
            exact hqe ▸ hzle q hq
        unfold specEntryCond
        rw [hsa, hminval]
        dsimp only
        by_cases hmt : m = t
        · rw [if_pos hmt] at hres
          rw [Option.some_inj] at hres
          subst hres
          subst hmt
          constructor
          · intro hwin
            have hall : (candidates b.customers us).all
                (fun p => p.2 != m || strLt us p.1) = true := by
              rw [List.all_eq_true]
              intro p hp
              by_cases hpm : p.2 = m
              · have hpmin : ∀ s ∈ candidates b.customers us, p.2 ≤ s.2 := by
                  rw [hpm]; exact hzle
                have hpe : p = (i, m) := huniq p hp (i, m) hzmem hpmin hzle
                rw [hpe]
                simp [hwin]
              · simp [hpm]
            simp [hall]
          · intro hrhs
            have hall : (candidates b.customers us).all
                (fun p => p.2 != m || strLt us p.1) = true := by
              revert hrhs
              cases (candidates b.customers us).all (fun p => p.2 != m || strLt us p.1) <;> simp
            have h1 := (List.all_eq_true.mp hall) (i, m) hzmem
            simpa using h1
        · rw [if_neg hmt] at hres
          rw [Option.some_inj] at hres
          subst hres
          simp [hmt]

/-- Witness for the amended C2 on a contention-free snapshot: the single
other non-zero ticket is a strictly larger 5, so the requester with
ticket 3 both passes the code predicate and satisfies the spec
condition. -/
theorem c2_entry_predicate_amended_witness : specEntryCond sWitness "1" 3 = true :=
  (c2_entry_predicate_amended sWitness sWitness.customers "1" 3 true
    (List.Perm.refl _) (by decide) (by decide)).mp rfl

/-- C1: mutual exclusion is violated by the code. On the reachable
converged snapshot where all three participants hold ticket 1 and every
published view reads 1, participant 1 satisfies the entry predicate
under its own iteration order and participant 2 satisfies it under the
iteration order that scans participant 3 first, so both enter the
critical section from the same document state. -/
theorem c1_mutual_exclusion_violation :
    sTie.customers.Perm sTie.customers ∧
    ordTie2.Perm sTie.customers ∧
    entryPred sTie.customers "1" 1 = some true ∧
    entryPred ordTie2 "2" 1 = some true ∧
    ("1" : String) ≠ "2" := by
  refine ⟨by decide, by decide, by decide, by decide, by decide⟩

/-- C4: the entry decision is not a function of the snapshot alone. On
the same three-way-tie snapshot, participant 2 loses under the canonical
iteration order but wins under the order that scans participant 3 first:
two evaluations on equal snapshots disagree, so the result depends on
map iteration order. -/
theorem c4_tie_break_order_dependent :
    sTie.customers.Perm sTie.customers ∧
    ordTie2.Perm sTie.customers ∧
    entryPred sTie.customers "2" 1 = some false ∧
    entryPred ordTie2 "2" 1 = some true := by
  refine ⟨by decide, by decide, by decide, by decide⟩

/-- C9: when the change notifier reports shutdown during the entry wait,
the loop exits through the shutdown branch without the entry condition
ever holding, yet `run_bakery_algorithm` returns unit and the
`increment` handler proceeds into the critical section exactly as after
a successful entry. -/
theorem c9_shutdown_entry_not_failed :
    runEntryWait "1" 1 [none] = WaitOutcome.stopped ∧
    incrementEntersCS (runEntryWait "1" 1 [none]) = true ∧
    incrementEntersCS WaitOutcome.met = incrementEntersCS WaitOutcome.stopped := by
  refine ⟨by decide, by decide, by decide⟩
